import Mathlib

/-!
Verification of the `recurrent` library: a weekly recurrence kernel that,
given a set of weekdays plus a single time of day, computes the nearest
occurrence strictly in the future (`next`) or strictly in the past (`prev`)
of a given timestamp.

The Rust source (src/lib.rs, src/conv.rs) is embedded shallowly:

* `OrderedWeekday` mirrors the enum with discriminants Mon=0 .. Sun=6; its
  derived order is the discriminant order, modelled through `ordinal`.
* `duration_to` / `duration_from` mirror the two distance functions, the
  day count carried as `Int` (Rust computes in `isize` and wraps into a
  `chrono::Duration` of whole days).
* A `chrono::NaiveTime` is a record of hour/minute/second/nanosecond; its
  derived order is modelled by `toNanos`.  A `chrono::DateTime` is modelled
  as an absolute day number (`Int`) plus a `NaiveTime`; day 0 is a Monday,
  and adding a days-duration adds to the day number.
* The `BTreeSet<OrderedWeekday>` is modelled as its ascending, duplicate-free
  iteration sequence: collecting a list into the set yields the sublist of
  the full week consisting of the days present in the list.
* The fallible `with_hour`/`with_minute`/`with_second`/`with_nanosecond`
  calls return `Option`, and the `unwrap`s in `apply_time` and in the
  find-or-fallback searches are modelled by propagating `Option` through
  `next` and `prev`, so that totality is a provable statement rather than an
  assumption.
-/

namespace Recurrent

/-- The `OrderedWeekday` enum of src/lib.rs: weekdays ordered Monday first. -/
inductive OrderedWeekday where
  | Mon
  | Tue
  | Wed
  | Thu
  | Fri
  | Sat
  | Sun
deriving DecidableEq, Repr, Fintype

namespace OrderedWeekday

/-- The enum discriminant (`as isize` in the source): Mon=0 .. Sun=6. -/
def ordinal : OrderedWeekday → Int
  | Mon => 0
  | Tue => 1
  | Wed => 2
  | Thu => 3
  | Fri => 4
  | Sat => 5
  | Sun => 6

/-- `duration_to` of src/lib.rs: forward day distance from `self` to `nxt`,
wrapping by +7 so the result is never below 1. -/
def duration_to (self nxt : OrderedWeekday) : Int :=
  let d := nxt.ordinal - self.ordinal
  if d < 1 then d + 7 else d

/-- `duration_from` of src/lib.rs: backward day distance from `self` to
`prv`, wrapping by -7 so the result is never above -1. -/
def duration_from (self prv : OrderedWeekday) : Int :=
  let d := prv.ordinal - self.ordinal
  if d ≥ 0 then d - 7 else d

end OrderedWeekday

/-- The `chrono::Weekday` enum used at the construction boundary. -/
inductive Weekday where
  | Mon
  | Tue
  | Wed
  | Thu
  | Fri
  | Sat
  | Sun
deriving DecidableEq, Repr, Fintype

/-- `From<Weekday> for OrderedWeekday` of src/conv.rs. -/
def OrderedWeekday.fromWeekday : Weekday → OrderedWeekday
  | .Mon => .Mon
  | .Tue => .Tue
  | .Wed => .Wed
  | .Thu => .Thu
  | .Fri => .Fri
  | .Sat => .Sat
  | .Sun => .Sun

/-- A `chrono::NaiveTime`: wall-clock fields.  The real type keeps the
invariant hour<24, minute<60, second<60, nano<2e9; here that invariant is
the explicit predicate `NaiveTime.ValidHMS` below. -/
structure NaiveTime where
  hour : Nat
  minute : Nat
  second : Nat
  nano : Nat
deriving DecidableEq, Repr

namespace NaiveTime

/-- Total nanoseconds since midnight; `chrono`'s derived order on
`NaiveTime` coincides with the order of this quantity. -/
def toNanos (t : NaiveTime) : Nat :=
  ((t.hour * 60 + t.minute) * 60 + t.second) * 1000000000 + t.nano

/-- The field-range invariant `chrono` guarantees for any `NaiveTime`
it hands out (the sub-second field may reach 2e9 for leap seconds). -/
def ValidHMS (t : NaiveTime) : Prop :=
  t.hour < 24 ∧ t.minute < 60 ∧ t.second < 60

instance (t : NaiveTime) : Decidable t.ValidHMS := by
  unfold ValidHMS; infer_instance

/-- The shape the specification gives a TimeOfDay: well-formed
hour/minute/second and no sub-second part (the construction interface
takes an hour/minute/second triple). -/
def IsTimeOfDay (t : NaiveTime) : Prop :=
  t.ValidHMS ∧ t.nano = 0

instance (t : NaiveTime) : Decidable t.IsTimeOfDay := by
  unfold IsTimeOfDay; infer_instance

end NaiveTime

/-- A `chrono::DateTime` in some fixed temporal frame: an absolute day
number plus a wall-clock time.  Day 0 is a Monday; `chrono`'s addition of
a whole-days `Duration` adds to the day number and leaves the clock
fields unchanged. -/
structure DateTime where
  day : Int
  time : NaiveTime
deriving DecidableEq, Repr

/-- Weekday of an absolute day number (day 0 is a Monday). -/
def OrderedWeekday.ofDayNumber (n : Int) : OrderedWeekday :=
  match (n % 7).toNat with
  | 0 => .Mon
  | 1 => .Tue
  | 2 => .Wed
  | 3 => .Thu
  | 4 => .Fri
  | 5 => .Sat
  | _ => .Sun

namespace DateTime

/-- `date.weekday()` composed with the `From` conversion of src/conv.rs:
the weekday of the timestamp as an `OrderedWeekday`. -/
def weekday (d : DateTime) : OrderedWeekday :=
  OrderedWeekday.ofDayNumber d.day

/-- Adding a whole-days `chrono::Duration` to a timestamp. -/
def addDays (d : DateTime) (k : Int) : DateTime :=
  { d with day := d.day + k }

/-- `chrono`'s derived order on timestamps: by date, then by time. -/
def le (a b : DateTime) : Prop :=
  a.day < b.day ∨ (a.day = b.day ∧ a.time.toNanos ≤ b.time.toNanos)

/-- Strict version of `DateTime.le`. -/
def lt (a b : DateTime) : Prop :=
  a.day < b.day ∨ (a.day = b.day ∧ a.time.toNanos < b.time.toNanos)

instance (a b : DateTime) : Decidable (a.le b) := by
  unfold le; infer_instance

instance (a b : DateTime) : Decidable (a.lt b) := by
  unfold lt; infer_instance

/-- `with_hour`: fails when the requested hour is out of range. -/
def with_hour (d : DateTime) (h : Nat) : Option DateTime :=
  if h < 24 then some { d with time := { d.time with hour := h } } else none

/-- `with_minute`: fails when the requested minute is out of range. -/
def with_minute (d : DateTime) (m : Nat) : Option DateTime :=
  if m < 60 then some { d with time := { d.time with minute := m } } else none

/-- `with_second`: fails when the requested second is out of range. -/
def with_second (d : DateTime) (s : Nat) : Option DateTime :=
  if s < 60 then some { d with time := { d.time with second := s } } else none

/-- `with_nanosecond`: fails when the requested value reaches 2e9. -/
def with_nanosecond (d : DateTime) (n : Nat) : Option DateTime :=
  if n < 2000000000 then some { d with time := { d.time with nano := n } } else none

end DateTime

/-- `apply_time` of src/lib.rs: overwrite hour, minute and second with the
fields of `time` and zero the sub-second field; each step is the fallible
`with_*` call the source unwraps. -/
def apply_time (date_time : DateTime) (time : NaiveTime) : Option DateTime :=
  (date_time.with_hour time.hour).bind fun d1 =>
    (d1.with_minute time.minute).bind fun d2 =>
      (d2.with_second time.second).bind fun d3 =>
        d3.with_nanosecond 0

/-- The `Error` enum of src/lib.rs: the only variant is `Empty`. -/
inductive Error where
  | Empty
deriving DecidableEq, Repr

/-- The week in ascending order, i.e. every `OrderedWeekday` once. -/
def allDays : List OrderedWeekday :=
  [.Mon, .Tue, .Wed, .Thu, .Fri, .Sat, .Sun]

/-- Collecting a list of `OrderedWeekday`s into a `BTreeSet`: the set is
modelled by its ascending, duplicate-free iteration sequence, which is the
sublist of the full week consisting of the days present in the input. -/
def collectDaySet (l : List OrderedWeekday) : List OrderedWeekday :=
  allDays.filter (fun d => l.contains d)

/-- The `Recurrence` struct: the day set (as its ascending iteration
sequence) plus the configured time of day. -/
structure Recurrence where
  days : List OrderedWeekday
  time : NaiveTime
deriving DecidableEq, Repr

/-- The find-or-fallback search of `Recurrence::next`: the first element of
the ascending iteration sequence strictly greater than `cur`, falling back
to the first element of the whole sequence. -/
def findOrFirst (days : List OrderedWeekday) (cur : OrderedWeekday) : Option OrderedWeekday :=
  match days.find? (fun day : OrderedWeekday => decide (cur.ordinal < day.ordinal)) with
  | some day => some day
  | none => days.head?

/-- The find-or-fallback search of `Recurrence::prev`: the first element of
the reversed iteration sequence strictly less than `cur`, falling back to
the first element of the reversed sequence. -/
def rfindOrLast (days : List OrderedWeekday) (cur : OrderedWeekday) : Option OrderedWeekday :=
  match days.reverse.find? (fun day : OrderedWeekday => decide (day.ordinal < cur.ordinal)) with
  | some day => some day
  | none => days.reverse.head?

namespace Recurrence

/-- `Recurrence::new` of src/lib.rs, with the weekday source already
elaborated to the list of weekdays it yields (every `Weekdays` impl in
src/conv.rs produces exactly the values of the single day, tuple or slice
in order). -/
def new (days : List Weekday) (time : NaiveTime) : Except Error Recurrence :=
  if days.length = 0 then
    .error .Empty
  else
    .ok { time := time, days := collectDaySet (days.map OrderedWeekday.fromWeekday) }

/-- `Recurrence::next` of src/lib.rs.  The `find`-with-fallback over the
set iterator becomes `find?` on the ascending sequence with `head?` as the
fallback; the `unwrap`s are propagated as `Option`. -/
def next (r : Recurrence) (date : DateTime) : Option DateTime :=
  let current_day := date.weekday
  let days_to_add :=
    if current_day ∈ r.days ∧ date.time.toNanos < r.time.toNanos then
      some (0 : Int)
    else
      (findOrFirst r.days current_day).map (fun day => current_day.duration_to day)
  days_to_add.bind fun k => apply_time (date.addDays k) r.time

/-- `Recurrence::prev` of src/lib.rs: as `next` but scanning the reversed
iterator for the largest smaller day, falling back to the last element. -/
def prev (r : Recurrence) (date : DateTime) : Option DateTime :=
  let current_day := date.weekday
  let days_to_add :=
    if current_day ∈ r.days ∧ r.time.toNanos < date.time.toNanos then
      some (0 : Int)
    else
      (rfindOrLast r.days current_day).map (fun day => current_day.duration_from day)
  days_to_add.bind fun k => apply_time (date.addDays k) r.time

end Recurrence

/-- The day-set invariant every constructed `Recurrence` enjoys: the
iteration sequence is strictly ascending by ordinal. -/
def DaysSorted (l : List OrderedWeekday) : Prop :=
  l.Pairwise (fun a b => a.ordinal < b.ordinal)

instance (l : List OrderedWeekday) : Decidable (DaysSorted l) := by
  unfold DaysSorted; infer_instance

/-- The time stamped onto every result: the configured hour, minute and
second with the sub-second field zeroed. -/
def stamp (t : NaiveTime) : NaiveTime :=
  ⟨t.hour, t.minute, t.second, 0⟩

/-- Spec-side helper: the smallest-ordinal day of a list, if any. -/
def smallestDay? : List OrderedWeekday → Option OrderedWeekday
  | [] => none
  | a :: rest =>
    match smallestDay? rest with
    | none => some a
    | some b => if a.ordinal ≤ b.ordinal then some a else some b

/-- Spec-side helper: the largest-ordinal day of a list, if any. -/
def largestDay? : List OrderedWeekday → Option OrderedWeekday
  | [] => none
  | a :: rest =>
    match largestDay? rest with
    | none => some a
    | some b => if a.ordinal ≤ b.ordinal then some b else some a

/-- Spec-side selection for `next` (spec 4.2, step 3): the smallest-ordinal
day of the set strictly greater than the current day, wrapping to the
smallest day of the whole set when none exists. -/
def specNextDay (days : List OrderedWeekday) (cur : OrderedWeekday) : Option OrderedWeekday :=
  match smallestDay? (days.filter (fun e => decide (cur.ordinal < e.ordinal))) with
  | some c => some c
  | none => smallestDay? days

/-- Spec-side selection for `prev` (spec 4.2, step 3): the largest-ordinal
day of the set strictly less than the current day, wrapping to the largest
day of the whole set when none exists. -/
def specPrevDay (days : List OrderedWeekday) (cur : OrderedWeekday) : Option OrderedWeekday :=
  match largestDay? (days.filter (fun e => decide (e.ordinal < cur.ordinal))) with
  | some c => some c
  | none => largestDay? days

/-! ## Basic facts about the embedding -/

namespace OrderedWeekday

theorem ordinal_bounds : ∀ a : OrderedWeekday, 0 ≤ a.ordinal ∧ a.ordinal < 7 := by
  decide

theorem ordinal_inj : ∀ a b : OrderedWeekday, a.ordinal = b.ordinal → a = b := by
  decide

theorem ordinal_ofDayNumber (n : Int) : (ofDayNumber n).ordinal = n % 7 := by
  have h0 : 0 ≤ n % 7 := Int.emod_nonneg n (by norm_num)
  have h7 : n % 7 < 7 := Int.emod_lt_of_pos n (by norm_num)
  have hcases : (n % 7).toNat = 0 ∨ (n % 7).toNat = 1 ∨ (n % 7).toNat = 2 ∨
      (n % 7).toNat = 3 ∨ (n % 7).toNat = 4 ∨ (n % 7).toNat = 5 ∨ (n % 7).toNat = 6 := by
    omega
  unfold ofDayNumber
  rcases hcases with h|h|h|h|h|h|h <;> rw [h] <;> simp [ordinal] <;> omega

theorem duration_to_bounds (a b : OrderedWeekday) :
    1 ≤ a.duration_to b ∧ a.duration_to b ≤ 7 := by
  obtain ⟨ha0, ha7⟩ := ordinal_bounds a
  obtain ⟨hb0, hb7⟩ := ordinal_bounds b
  unfold duration_to
  dsimp only
  split <;> omega

theorem duration_from_bounds (a b : OrderedWeekday) :
    -7 ≤ a.duration_from b ∧ a.duration_from b ≤ -1 := by
  obtain ⟨ha0, ha7⟩ := ordinal_bounds a
  obtain ⟨hb0, hb7⟩ := ordinal_bounds b
  unfold duration_from
  dsimp only
  split <;> omega

theorem duration_to_emod (a b : OrderedWeekday) :
    (a.duration_to b) % 7 = (b.ordinal - a.ordinal) % 7 := by
  unfold duration_to
  dsimp only
  split
  · omega
  · rfl

theorem duration_from_emod (a b : OrderedWeekday) :
    (a.duration_from b) % 7 = (b.ordinal - a.ordinal) % 7 := by
  unfold duration_from
  dsimp only
  split
  · omega
  · rfl

theorem duration_to_eq_seven (a b : OrderedWeekday) (h : a.duration_to b = 7) : b = a := by
  obtain ⟨ha0, ha7⟩ := ordinal_bounds a
  obtain ⟨hb0, hb7⟩ := ordinal_bounds b
  apply ordinal_inj
  unfold duration_to at h
  dsimp only at h
  split at h <;> omega

theorem duration_from_eq_neg_seven (a b : OrderedWeekday)
    (h : a.duration_from b = -7) : b = a := by
  obtain ⟨ha0, ha7⟩ := ordinal_bounds a
  obtain ⟨hb0, hb7⟩ := ordinal_bounds b
  apply ordinal_inj
  unfold duration_from at h
  dsimp only at h
  split at h <;> omega

end OrderedWeekday

theorem apply_time_of_valid (d : DateTime) (t : NaiveTime) (hv : t.ValidHMS) :
    apply_time d t = some ⟨d.day, stamp t⟩ := by
  obtain ⟨h1, h2, h3⟩ := hv
  simp [apply_time, DateTime.with_hour, DateTime.with_minute, DateTime.with_second,
    DateTime.with_nanosecond, h1, h2, h3, stamp]

theorem DaysSorted.filter (l : List OrderedWeekday) (p : OrderedWeekday → Bool)
    (h : DaysSorted l) : DaysSorted (l.filter p) :=
  List.Pairwise.sublist (List.filter_sublist l) h

theorem collectDaySet_sorted (l : List OrderedWeekday) : DaysSorted (collectDaySet l) :=
  DaysSorted.filter allDays _ (by decide)

theorem collectDaySet_nodup (l : List OrderedWeekday) : (collectDaySet l).Nodup :=
  List.Nodup.filter _ (by decide)

theorem mem_collectDaySet (l : List OrderedWeekday) (d : OrderedWeekday) :
    d ∈ collectDaySet l ↔ d ∈ l := by
  unfold collectDaySet
  rw [List.mem_filter]
  simp [allDays]
  rcases d with _|_|_|_|_|_|_ <;> simp

theorem smallestDay?_of_sorted (l : List OrderedWeekday) (h : DaysSorted l) :
    smallestDay? l = l.head? := by
  induction l with
  | nil => rfl
  | cons a rest ih =>
    rcases List.pairwise_cons.mp h with ⟨ha, hrest⟩
    show (match smallestDay? rest with
      | none => some a
      | some b => if a.ordinal ≤ b.ordinal then some a else some b) = _
    rw [ih hrest]
    cases rest with
    | nil => rfl
    | cons b rest2 =>
      have hab : a.ordinal ≤ b.ordinal := le_of_lt (ha b (by simp))
      simp [hab]

theorem largestDay?_of_sorted (l : List OrderedWeekday) (h : DaysSorted l) :
    largestDay? l = l.getLast? := by
  induction l with
  | nil => rfl
  | cons a rest ih =>
    rcases List.pairwise_cons.mp h with ⟨ha, hrest⟩
    show (match largestDay? rest with
      | none => some a
      | some b => if a.ordinal ≤ b.ordinal then some b else some a) = _
    rw [ih hrest]
    cases rest with
    | nil => rfl
    | cons b rest2 =>
      rw [List.getLast?_cons_cons]
      cases hl : (b :: rest2).getLast? with
      | none => simp at hl
      | some c =>
        have hc : c ∈ b :: rest2 := List.mem_of_getLast?_eq_some hl
        have hac : a.ordinal ≤ c.ordinal := le_of_lt (ha c hc)
        simp [hac]

theorem apply_time_some (d : DateTime) (t : NaiveTime) (x : DateTime)
    (h : apply_time d t = some x) : x = ⟨d.day, stamp t⟩ := by
  unfold apply_time DateTime.with_hour DateTime.with_minute DateTime.with_second
    DateTime.with_nanosecond at h
  split_ifs at h <;> simp_all [stamp]

theorem stamp_toNanos_le (t : NaiveTime) : (stamp t).toNanos ≤ t.toNanos := by
  unfold stamp NaiveTime.toNanos
  dsimp only
  omega

theorem stamp_toNanos_of_zero (t : NaiveTime) (h : t.nano = 0) :
    (stamp t).toNanos = t.toNanos := by
  unfold stamp NaiveTime.toNanos
  dsimp only
  omega

theorem findOrFirst_mem (days : List OrderedWeekday) (cur day : OrderedWeekday)
    (h : findOrFirst days cur = some day) : day ∈ days := by
  unfold findOrFirst at h
  cases hf : days.find? (fun e : OrderedWeekday => decide (cur.ordinal < e.ordinal)) with
  | some e =>
    rw [hf] at h
    simp only [Option.some.injEq] at h
    exact h ▸ List.mem_of_find?_eq_some hf
  | none =>
    rw [hf] at h
    obtain ⟨ys, hy⟩ := List.head?_eq_some_iff.mp h
    simp [hy]

theorem rfindOrLast_mem (days : List OrderedWeekday) (cur day : OrderedWeekday)
    (h : rfindOrLast days cur = some day) : day ∈ days := by
  unfold rfindOrLast at h
  cases hf : days.reverse.find? (fun e : OrderedWeekday => decide (e.ordinal < cur.ordinal)) with
  | some e =>
    rw [hf] at h
    simp only [Option.some.injEq] at h
    have := List.mem_of_find?_eq_some hf
    rw [List.mem_reverse] at this
    exact h ▸ this
  | none =>
    rw [hf] at h
    obtain ⟨ys, hy⟩ := List.head?_eq_some_iff.mp h
    have : day ∈ days.reverse := by simp [hy]
    exact List.mem_reverse.mp this

theorem findOrFirst_eq_specNextDay (days : List OrderedWeekday) (cur : OrderedWeekday)
    (hs : DaysSorted days) : findOrFirst days cur = specNextDay days cur := by
  unfold findOrFirst specNextDay
  rw [← List.filter_head? (fun day : OrderedWeekday => decide (cur.ordinal < day.ordinal)) days]
  rw [smallestDay?_of_sorted _ (DaysSorted.filter days _ hs), smallestDay?_of_sorted _ hs]

theorem rfindOrLast_eq_specPrevDay (days : List OrderedWeekday) (cur : OrderedWeekday)
    (hs : DaysSorted days) : rfindOrLast days cur = specPrevDay days cur := by
  unfold rfindOrLast specPrevDay
  rw [← List.filter_getLast? (fun day : OrderedWeekday => decide (day.ordinal < cur.ordinal)) days]
  rw [List.head?_reverse]
  rw [largestDay?_of_sorted _ (DaysSorted.filter days _ hs), largestDay?_of_sorted _ hs]

theorem findOrFirst_isSome (days : List OrderedWeekday) (cur : OrderedWeekday)
    (hne : days ≠ []) : (findOrFirst days cur).isSome := by
  unfold findOrFirst
  cases hf : days.find? (fun e : OrderedWeekday => decide (cur.ordinal < e.ordinal)) with
  | some e => rfl
  | none =>
    cases days with
    | nil => exact absurd rfl hne
    | cons a rest => rfl

theorem rfindOrLast_isSome (days : List OrderedWeekday) (cur : OrderedWeekday)
    (hne : days ≠ []) : (rfindOrLast days cur).isSome := by
  unfold rfindOrLast
  cases hf : days.reverse.find? (fun e : OrderedWeekday => decide (e.ordinal < cur.ordinal)) with
  | some e => rfl
  | none =>
    rw [List.head?_reverse]
    cases hg : days.getLast? with
    | some e => rfl
    | none =>
      rw [List.getLast?_eq_none_iff] at hg
      exact absurd hg hne

theorem next_same_day_eq (r : Recurrence) (d : DateTime)
    (h : d.weekday ∈ r.days ∧ d.time.toNanos < r.time.toNanos) :
    r.next d = apply_time (d.addDays 0) r.time := by
  unfold Recurrence.next
  dsimp only
  rw [if_pos h]
  rfl

theorem next_else_eq (r : Recurrence) (d : DateTime)
    (h : ¬(d.weekday ∈ r.days ∧ d.time.toNanos < r.time.toNanos)) :
    r.next d = ((findOrFirst r.days d.weekday).map
        (fun c => d.weekday.duration_to c)).bind
      (fun k => apply_time (d.addDays k) r.time) := by
  unfold Recurrence.next
  dsimp only
  rw [if_neg h]

theorem prev_same_day_eq (r : Recurrence) (d : DateTime)
    (h : d.weekday ∈ r.days ∧ r.time.toNanos < d.time.toNanos) :
    r.prev d = apply_time (d.addDays 0) r.time := by
  unfold Recurrence.prev
  dsimp only
  rw [if_pos h]
  rfl

theorem prev_else_eq (r : Recurrence) (d : DateTime)
    (h : ¬(d.weekday ∈ r.days ∧ r.time.toNanos < d.time.toNanos)) :
    r.prev d = ((rfindOrLast r.days d.weekday).map
        (fun c => d.weekday.duration_from c)).bind
      (fun k => apply_time (d.addDays k) r.time) := by
  unfold Recurrence.prev
  dsimp only
  rw [if_neg h]

/-! ## The claims -/

/-- C6: for every pair of weekdays, the forward distance equals
target.ordinal - self.ordinal, incremented by 7 when that difference is
less than 1, so it always lies between 1 and 7 days inclusive and is
never 0. -/
theorem duration_to_claim (a b : OrderedWeekday) :
    a.duration_to b =
      (if b.ordinal - a.ordinal < 1 then b.ordinal - a.ordinal + 7
        else b.ordinal - a.ordinal)
    ∧ 1 ≤ a.duration_to b ∧ a.duration_to b ≤ 7 :=
  ⟨rfl, OrderedWeekday.duration_to_bounds a b⟩

/-- C7: for every pair of weekdays, the backward distance equals
source.ordinal - self.ordinal, decremented by 7 when that difference is
at least 0, so it always lies between -7 and -1 days inclusive and is
never 0. -/
theorem duration_from_claim (a b : OrderedWeekday) :
    a.duration_from b =
      (if 0 ≤ b.ordinal - a.ordinal then b.ordinal - a.ordinal - 7
        else b.ordinal - a.ordinal)
    ∧ -7 ≤ a.duration_from b ∧ a.duration_from b ≤ -1 :=
  ⟨rfl, OrderedWeekday.duration_from_bounds a b⟩

/-- C3: when the timestamp's weekday is in the configured day set and its
time of day is strictly before the configured time, `next` returns the
same date with hour, minute and second set exactly to the configured time
(day offset 0). -/
theorem next_same_day_claim (r : Recurrence) (d : DateTime)
    (hv : r.time.ValidHMS)
    (hmem : d.weekday ∈ r.days)
    (hlt : d.time.toNanos < r.time.toNanos) :
    r.next d = some ⟨d.day, stamp r.time⟩ := by
  rw [next_same_day_eq r d ⟨hmem, hlt⟩, apply_time_of_valid _ _ hv]
  simp [DateTime.addDays]

/-- C3 witness: {Sun}@15:00 queried on a Sunday at 14:15:16 fires the same
day at 15:00. -/
theorem next_same_day_claim_witness :
    Recurrence.next ⟨[.Sun], ⟨15, 0, 0, 0⟩⟩ ⟨6, ⟨14, 15, 16, 0⟩⟩ =
      some ⟨6, ⟨15, 0, 0, 0⟩⟩ :=
  next_same_day_claim ⟨[.Sun], ⟨15, 0, 0, 0⟩⟩ ⟨6, ⟨14, 15, 16, 0⟩⟩
    (by decide) (by decide) (by decide)

/-- C1: whenever the same-day case does not apply (the weekday is not in
the day set, or the time of day is not strictly earlier than the
configured time), `next` selects the smallest-ordinal day of the set
strictly greater than the current weekday, falling back to the smallest
day of the whole set, adds the forward distance to that day to the date,
and stamps hour, minute and second to the configured time with the
sub-second field zeroed. -/
theorem next_wrap_claim (r : Recurrence) (d : DateTime) (c : OrderedWeekday)
    (hs : DaysSorted r.days)
    (hv : r.time.ValidHMS)
    (hcond : ¬(d.weekday ∈ r.days ∧ d.time.toNanos < r.time.toNanos))
    (hc : specNextDay r.days d.weekday = some c) :
    r.next d = some ⟨d.day + d.weekday.duration_to c, stamp r.time⟩ := by
  rw [next_else_eq r d hcond, findOrFirst_eq_specNextDay r.days d.weekday hs, hc]
  simp only [Option.map_some', Option.some_bind]
  rw [apply_time_of_valid _ _ hv]
  rfl

/-- C1 witness: {Tue, Fri}@14:00 queried on a Sunday at 14:15:16 selects
Tuesday (wrap to the smallest day) and lands two days later at 14:00. -/
theorem next_wrap_claim_witness :
    Recurrence.next ⟨[.Tue, .Fri], ⟨14, 0, 0, 0⟩⟩ ⟨6, ⟨14, 15, 16, 0⟩⟩ =
      some ⟨8, ⟨14, 0, 0, 0⟩⟩ :=
  next_wrap_claim ⟨[.Tue, .Fri], ⟨14, 0, 0, 0⟩⟩ ⟨6, ⟨14, 15, 16, 0⟩⟩ .Tue
    (by decide) (by decide) (by decide) (by decide)

/-- C2: `prev` returns the timestamp's own date stamped with the
configured time when the weekday is in the set and the time of day is
strictly later than the configured time; otherwise it selects the
largest-ordinal day of the set strictly less than the current weekday
(scanning descending), falling back to the largest day of the whole set,
applies the backward offset computed by the distance-from function, and
stamps hour, minute and second to the configured time with the sub-second
field zeroed. -/
theorem prev_claim (r : Recurrence) (d : DateTime)
    (hs : DaysSorted r.days) (hv : r.time.ValidHMS) :
    (d.weekday ∈ r.days ∧ r.time.toNanos < d.time.toNanos →
        r.prev d = some ⟨d.day, stamp r.time⟩)
    ∧ (¬(d.weekday ∈ r.days ∧ r.time.toNanos < d.time.toNanos) →
        ∀ c, specPrevDay r.days d.weekday = some c →
          r.prev d = some ⟨d.day + d.weekday.duration_from c, stamp r.time⟩) := by
  constructor
  · intro h
    rw [prev_same_day_eq r d h, apply_time_of_valid _ _ hv]
    simp [DateTime.addDays]
  · intro h c hc
    rw [prev_else_eq r d h, rfindOrLast_eq_specPrevDay r.days d.weekday hs, hc]
    simp only [Option.map_some', Option.some_bind]
    rw [apply_time_of_valid _ _ hv]
    rfl

/-- C2 witness: {Sun}@15:00 queried on a Sunday at 14:15:16 takes the wrap
branch (time not strictly later) and lands seven days earlier at 15:00;
{Sun}@14:00 on the same instant takes the same-day branch. -/
theorem prev_claim_witness :
    Recurrence.prev ⟨[.Sun], ⟨15, 0, 0, 0⟩⟩ ⟨6, ⟨14, 15, 16, 0⟩⟩ =
      some ⟨-1, ⟨15, 0, 0, 0⟩⟩
    ∧ Recurrence.prev ⟨[.Sun], ⟨14, 0, 0, 0⟩⟩ ⟨6, ⟨14, 15, 16, 0⟩⟩ =
      some ⟨6, ⟨14, 0, 0, 0⟩⟩ := by
  constructor
  · have h := (prev_claim ⟨[.Sun], ⟨15, 0, 0, 0⟩⟩ ⟨6, ⟨14, 15, 16, 0⟩⟩
      (by decide) (by decide)).2 (by decide) .Sun (by decide)
    exact h.trans (by decide)
  · exact (prev_claim ⟨[.Sun], ⟨14, 0, 0, 0⟩⟩ ⟨6, ⟨14, 15, 16, 0⟩⟩
      (by decide) (by decide)).1 (by decide)

/-- C5: construction fails with the single error kind `Empty` exactly when
the weekday source yields zero weekdays; any non-empty source succeeds,
and duplicates collapse into a set of distinct days holding exactly the
weekdays of the source. -/
theorem new_claim (l : List Weekday) (t : NaiveTime) :
    (Recurrence.new l t = .error .Empty ↔ l = [])
    ∧ (l ≠ [] → ∃ r, Recurrence.new l t = .ok r ∧ r.time = t ∧ r.days.Nodup ∧
        ∀ e, e ∈ r.days ↔ ∃ w ∈ l, OrderedWeekday.fromWeekday w = e) := by
  unfold Recurrence.new
  by_cases h : l.length = 0
  · rw [if_pos h]
    rw [List.length_eq_zero] at h
    constructor
    · simp [h]
    · intro hne
      exact absurd h hne
  · rw [if_neg h]
    have hne : l ≠ [] := by
      intro he
      exact h (by simp [he])
    constructor
    · constructor
      · intro hcontra
        exact absurd hcontra (by simp)
      · intro he
        exact absurd he hne
    · intro _
      refine ⟨_, rfl, rfl, collectDaySet_nodup _, ?_⟩
      intro e
      rw [mem_collectDaySet]
      simp [List.mem_map]

/-- C5 witness: the empty source fails with `Empty`; the duplicated source
[Sun, Sun] succeeds with the singleton day set. -/
theorem new_claim_witness :
    (Recurrence.new [] ⟨14, 0, 0, 0⟩ = .error .Empty)
    ∧ (∃ r, Recurrence.new [.Sun, .Sun] ⟨14, 0, 0, 0⟩ = .ok r ∧
        r.time = ⟨14, 0, 0, 0⟩ ∧ r.days.Nodup ∧
        ∀ e, e ∈ r.days ↔ ∃ w ∈ ([.Sun, .Sun] : List Weekday),
          OrderedWeekday.fromWeekday w = e) :=
  ⟨(new_claim [] ⟨14, 0, 0, 0⟩).1.mpr rfl,
   (new_claim [.Sun, .Sun] ⟨14, 0, 0, 0⟩).2 (by decide)⟩

theorem next_total (r : Recurrence) (d : DateTime) (hne : r.days ≠ [])
    (hv : r.time.ValidHMS) : (r.next d).isSome := by
  by_cases h : d.weekday ∈ r.days ∧ d.time.toNanos < r.time.toNanos
  · rw [next_same_day_eq r d h, apply_time_of_valid _ _ hv]
    rfl
  · rw [next_else_eq r d h]
    cases hf : findOrFirst r.days d.weekday with
    | none =>
      have hsome := findOrFirst_isSome r.days d.weekday hne
      rw [hf] at hsome
      exact absurd hsome (by simp)
    | some c =>
      simp only [Option.map_some', Option.some_bind]
      rw [apply_time_of_valid _ _ hv]
      rfl

theorem prev_total (r : Recurrence) (d : DateTime) (hne : r.days ≠ [])
    (hv : r.time.ValidHMS) : (r.prev d).isSome := by
  by_cases h : d.weekday ∈ r.days ∧ r.time.toNanos < d.time.toNanos
  · rw [prev_same_day_eq r d h, apply_time_of_valid _ _ hv]
    rfl
  · rw [prev_else_eq r d h]
    cases hf : rfindOrLast r.days d.weekday with
    | none =>
      have hsome := rfindOrLast_isSome r.days d.weekday hne
      rw [hf] at hsome
      exact absurd hsome (by simp)
    | some c =>
      simp only [Option.map_some', Option.some_bind]
      rw [apply_time_of_valid _ _ hv]
      rfl

/-- C9: for a successfully constructed Recurrence (so the day set is
non-empty) with a well-formed time of day, `next` and `prev` have no
failure path: every find-or-fallback search and every fallible
time-stamping step succeeds. -/
theorem totality_claim (l : List Weekday) (t : NaiveTime) (r : Recurrence)
    (d : DateTime)
    (hnew : Recurrence.new l t = .ok r) (hv : t.ValidHMS) :
    (r.next d).isSome ∧ (r.prev d).isSome := by
  unfold Recurrence.new at hnew
  by_cases h : l.length = 0
  · rw [if_pos h] at hnew
    exact absurd hnew (by simp)
  · rw [if_neg h] at hnew
    simp only [Except.ok.injEq] at hnew
    cases l with
    | nil => exact absurd rfl h
    | cons w rest =>
      have hmem : OrderedWeekday.fromWeekday w ∈
          collectDaySet ((w :: rest).map OrderedWeekday.fromWeekday) := by
        rw [mem_collectDaySet]
        simp
      have hne : r.days ≠ [] := by
        rw [← hnew]
        exact List.ne_nil_of_mem hmem
      have hvt : r.time.ValidHMS := by
        rw [← hnew]
        exact hv
      exact ⟨next_total r d hne hvt, prev_total r d hne hvt⟩

/-- C9 witness: the recurrence built from [Sun]@14:00 answers both queries
on Monday of week 0 at midnight. -/
theorem totality_claim_witness :
    (Recurrence.next ⟨[.Sun], ⟨14, 0, 0, 0⟩⟩ ⟨0, ⟨0, 0, 0, 0⟩⟩).isSome
    ∧ (Recurrence.prev ⟨[.Sun], ⟨14, 0, 0, 0⟩⟩ ⟨0, ⟨0, 0, 0, 0⟩⟩).isSome :=
  totality_claim [.Sun] ⟨14, 0, 0, 0⟩ ⟨[.Sun], ⟨14, 0, 0, 0⟩⟩ ⟨0, ⟨0, 0, 0, 0⟩⟩
    rfl (by decide)

theorem ofDayNumber_add_duration_to (n : Int) (c : OrderedWeekday) :
    OrderedWeekday.ofDayNumber (n + (OrderedWeekday.ofDayNumber n).duration_to c) = c := by
  apply OrderedWeekday.ordinal_inj
  rw [OrderedWeekday.ordinal_ofDayNumber]
  have h1 := OrderedWeekday.duration_to_emod (OrderedWeekday.ofDayNumber n) c
  have h2 := OrderedWeekday.ordinal_ofDayNumber n
  obtain ⟨hc0, hc7⟩ := OrderedWeekday.ordinal_bounds c
  obtain ⟨hn0, hn7⟩ := OrderedWeekday.ordinal_bounds (OrderedWeekday.ofDayNumber n)
  omega

theorem ofDayNumber_add_duration_from (n : Int) (c : OrderedWeekday) :
    OrderedWeekday.ofDayNumber (n + (OrderedWeekday.ofDayNumber n).duration_from c) = c := by
  apply OrderedWeekday.ordinal_inj
  rw [OrderedWeekday.ordinal_ofDayNumber]
  have h1 := OrderedWeekday.duration_from_emod (OrderedWeekday.ofDayNumber n) c
  have h2 := OrderedWeekday.ordinal_ofDayNumber n
  obtain ⟨hc0, hc7⟩ := OrderedWeekday.ordinal_bounds c
  obtain ⟨hn0, hn7⟩ := OrderedWeekday.ordinal_bounds (OrderedWeekday.ofDayNumber n)
  omega

/-- C10: the result of `next` and of `prev` is always an occurrence of the
schedule: its weekday is in the configured day set, and its clock fields
are the configured hour, minute and second with the sub-second field
zeroed. -/
theorem occurrence_claim (r : Recurrence) (d u v : DateTime)
    (hnext : r.next d = some u) (hprev : r.prev d = some v) :
    (u.weekday ∈ r.days ∧ u.time = stamp r.time)
    ∧ (v.weekday ∈ r.days ∧ v.time = stamp r.time) := by
  constructor
  · by_cases h : d.weekday ∈ r.days ∧ d.time.toNanos < r.time.toNanos
    · rw [next_same_day_eq r d h] at hnext
      have hu := apply_time_some _ _ _ hnext
      subst hu
      refine ⟨?_, rfl⟩
      show OrderedWeekday.ofDayNumber (d.day + 0) ∈ r.days
      rw [Int.add_zero]
      exact h.1
    · rw [next_else_eq r d h] at hnext
      cases hf : findOrFirst r.days d.weekday with
      | none =>
        rw [hf] at hnext
        exact absurd hnext (by simp)
      | some c =>
        rw [hf] at hnext
        simp only [Option.map_some', Option.some_bind] at hnext
        have hu := apply_time_some _ _ _ hnext
        subst hu
        refine ⟨?_, rfl⟩
        show OrderedWeekday.ofDayNumber (d.day + d.weekday.duration_to c) ∈ r.days
        rw [show d.weekday = OrderedWeekday.ofDayNumber d.day from rfl,
          ofDayNumber_add_duration_to]
        exact findOrFirst_mem r.days d.weekday c hf
  · by_cases h : d.weekday ∈ r.days ∧ r.time.toNanos < d.time.toNanos
    · rw [prev_same_day_eq r d h] at hprev
      have hv := apply_time_some _ _ _ hprev
      subst hv
      refine ⟨?_, rfl⟩
      show OrderedWeekday.ofDayNumber (d.day + 0) ∈ r.days
      rw [Int.add_zero]
      exact h.1
    · rw [prev_else_eq r d h] at hprev
      cases hf : rfindOrLast r.days d.weekday with
      | none =>
        rw [hf] at hprev
        exact absurd hprev (by simp)
      | some c =>
        rw [hf] at hprev
        simp only [Option.map_some', Option.some_bind] at hprev
        have hv := apply_time_some _ _ _ hprev
        subst hv
        refine ⟨?_, rfl⟩
        show OrderedWeekday.ofDayNumber (d.day + d.weekday.duration_from c) ∈ r.days
        rw [show d.weekday = OrderedWeekday.ofDayNumber d.day from rfl,
          ofDayNumber_add_duration_from]
        exact rfindOrLast_mem r.days d.weekday c hf

/-- C10 witness: {Tue, Fri}@14:00 queried on a Sunday afternoon: the next
occurrence falls on Tuesday and the previous one on Friday, both at
14:00:00.0. -/
theorem occurrence_claim_witness :
    (DateTime.weekday ⟨8, ⟨14, 0, 0, 0⟩⟩ ∈ ([.Tue, .Fri] : List OrderedWeekday)
      ∧ NaiveTime.mk 14 0 0 0 = stamp ⟨14, 0, 0, 0⟩)
    ∧ (DateTime.weekday ⟨4, ⟨14, 0, 0, 0⟩⟩ ∈ ([.Tue, .Fri] : List OrderedWeekday)
      ∧ NaiveTime.mk 14 0 0 0 = stamp ⟨14, 0, 0, 0⟩) :=
  occurrence_claim ⟨[.Tue, .Fri], ⟨14, 0, 0, 0⟩⟩ ⟨6, ⟨14, 15, 16, 0⟩⟩
    ⟨8, ⟨14, 0, 0, 0⟩⟩ ⟨4, ⟨14, 0, 0, 0⟩⟩ (by decide) (by decide)

/-- C8: when the timestamp's weekday is in the day set and its time of day
equals the configured time exactly, both queries take the wrap-around
branch: `next` lands at least one and at most seven days later, `prev` at
least one and at most seven days earlier, and neither returns the input
instant. -/
theorem exact_time_claim (r : Recurrence) (d u v : DateTime)
    (hmem : d.weekday ∈ r.days)
    (heq : d.time = r.time)
    (hnext : r.next d = some u)
    (hprev : r.prev d = some v) :
    (d.day + 1 ≤ u.day ∧ u.day ≤ d.day + 7 ∧ u ≠ d)
    ∧ (v.day ≤ d.day - 1 ∧ d.day - 7 ≤ v.day ∧ v ≠ d) := by
  have hn : ¬(d.weekday ∈ r.days ∧ d.time.toNanos < r.time.toNanos) := by
    rw [heq]
    simp
  have hp : ¬(d.weekday ∈ r.days ∧ r.time.toNanos < d.time.toNanos) := by
    rw [heq]
    simp
  rw [next_else_eq r d hn] at hnext
  rw [prev_else_eq r d hp] at hprev
  constructor
  · cases hf : findOrFirst r.days d.weekday with
    | none =>
      rw [hf] at hnext
      exact absurd hnext (by simp)
    | some c =>
      rw [hf] at hnext
      simp only [Option.map_some', Option.some_bind] at hnext
      have hu := apply_time_some _ _ _ hnext
      have hb := OrderedWeekday.duration_to_bounds d.weekday c
      subst hu
      refine ⟨?_, ?_, ?_⟩
      · show d.day + 1 ≤ d.day + d.weekday.duration_to c
        omega
      · show d.day + d.weekday.duration_to c ≤ d.day + 7
        omega
      · intro he
        have hd : d.day + d.weekday.duration_to c = d.day := congrArg DateTime.day he
        omega
  · cases hf : rfindOrLast r.days d.weekday with
    | none =>
      rw [hf] at hprev
      exact absurd hprev (by simp)
    | some c =>
      rw [hf] at hprev
      simp only [Option.map_some', Option.some_bind] at hprev
      have hv := apply_time_some _ _ _ hprev
      have hb := OrderedWeekday.duration_from_bounds d.weekday c
      subst hv
      refine ⟨?_, ?_, ?_⟩
      · show d.day + d.weekday.duration_from c ≤ d.day - 1
        omega
      · show d.day - 7 ≤ d.day + d.weekday.duration_from c
        omega
      · intro he
        have hd : d.day + d.weekday.duration_from c = d.day := congrArg DateTime.day he
        omega

/-- C8 witness: {Sun}@14:00:00.0 queried on a Sunday at exactly 14:00:00.0
wraps forward a full week to day 13 and backward a full week to day -1. -/
theorem exact_time_claim_witness :
    ((6 : Int) + 1 ≤ 13 ∧ (13 : Int) ≤ 6 + 7 ∧
      (⟨13, ⟨14, 0, 0, 0⟩⟩ : DateTime) ≠ ⟨6, ⟨14, 0, 0, 0⟩⟩)
    ∧ ((-1 : Int) ≤ 6 - 1 ∧ (6 : Int) - 7 ≤ -1 ∧
      (⟨-1, ⟨14, 0, 0, 0⟩⟩ : DateTime) ≠ ⟨6, ⟨14, 0, 0, 0⟩⟩) :=
  exact_time_claim ⟨[.Sun], ⟨14, 0, 0, 0⟩⟩ ⟨6, ⟨14, 0, 0, 0⟩⟩
    ⟨13, ⟨14, 0, 0, 0⟩⟩ ⟨-1, ⟨14, 0, 0, 0⟩⟩
    (by decide) rfl (by decide) (by decide)

/-- C4: when the time of day has no sub-second part (its specified shape),
`next` is strictly greater than the input unless the same-day case
applies, in which case it is at least the input's date at the configured
time; it is never more than 7 days ahead; symmetrically `prev` is at most
the input and never more than 7 days behind. -/
theorem progress_claim (r : Recurrence) (d u v : DateTime)
    (hnano : r.time.nano = 0)
    (hnext : r.next d = some u)
    (hprev : r.prev d = some v) :
    ((d.weekday ∈ r.days ∧ d.time.toNanos < r.time.toNanos →
        DateTime.le ⟨d.day, stamp r.time⟩ u)
     ∧ (¬(d.weekday ∈ r.days ∧ d.time.toNanos < r.time.toNanos) → d.lt u)
     ∧ u.le (d.addDays 7))
    ∧ (v.le d ∧ (d.addDays (-7)).le v) := by
  constructor
  · by_cases h : d.weekday ∈ r.days ∧ d.time.toNanos < r.time.toNanos
    · rw [next_same_day_eq r d h] at hnext
      have hu := apply_time_some _ _ _ hnext
      subst hu
      refine ⟨fun _ => ?_, fun hc => absurd h hc, ?_⟩
      · exact Or.inr ⟨show d.day = d.day + 0 by omega, le_refl _⟩
      · exact Or.inl (show d.day + 0 < d.day + 7 by omega)
    · rw [next_else_eq r d h] at hnext
      cases hf : findOrFirst r.days d.weekday with
      | none =>
        rw [hf] at hnext
        exact absurd hnext (by simp)
      | some c =>
        rw [hf] at hnext
        simp only [Option.map_some', Option.some_bind] at hnext
        have hu := apply_time_some _ _ _ hnext
        have hb := OrderedWeekday.duration_to_bounds d.weekday c
        subst hu
        refine ⟨fun hc => absurd hc h, fun _ => ?_, ?_⟩
        · exact Or.inl (show d.day < d.day + d.weekday.duration_to c by omega)
        · by_cases h7 : d.weekday.duration_to c = 7
          · have hcw : c = d.weekday := OrderedWeekday.duration_to_eq_seven _ _ h7
            have hcm : d.weekday ∈ r.days := by
              have hmm := findOrFirst_mem r.days d.weekday c hf
              rwa [hcw] at hmm
            have hle : r.time.toNanos ≤ d.time.toNanos := by
              by_contra hlt
              exact h ⟨hcm, by omega⟩
            refine Or.inr ⟨show d.day + d.weekday.duration_to c = d.day + 7 by omega, ?_⟩
            show (stamp r.time).toNanos ≤ d.time.toNanos
            rw [stamp_toNanos_of_zero r.time hnano]
            exact hle
          · exact Or.inl (show d.day + d.weekday.duration_to c < d.day + 7 by omega)
  · by_cases h : d.weekday ∈ r.days ∧ r.time.toNanos < d.time.toNanos
    · rw [prev_same_day_eq r d h] at hprev
      have hvv := apply_time_some _ _ _ hprev
      subst hvv
      constructor
      · refine Or.inr ⟨show d.day + 0 = d.day by omega, ?_⟩
        show (stamp r.time).toNanos ≤ d.time.toNanos
        rw [stamp_toNanos_of_zero r.time hnano]
        exact le_of_lt h.2
      · exact Or.inl (show d.day + (-7) < d.day + 0 by omega)
    · rw [prev_else_eq r d h] at hprev
      cases hf : rfindOrLast r.days d.weekday with
      | none =>
        rw [hf] at hprev
        exact absurd hprev (by simp)
      | some c =>
        rw [hf] at hprev
        simp only [Option.map_some', Option.some_bind] at hprev
        have hvv := apply_time_some _ _ _ hprev
        have hb := OrderedWeekday.duration_from_bounds d.weekday c
        subst hvv
        constructor
        · exact Or.inl (show d.day + d.weekday.duration_from c < d.day by omega)
        · by_cases h7 : d.weekday.duration_from c = -7
          · have hcw : c = d.weekday := OrderedWeekday.duration_from_eq_neg_seven _ _ h7
            have hcm : d.weekday ∈ r.days := by
              have hmm := rfindOrLast_mem r.days d.weekday c hf
              rwa [hcw] at hmm
            have hle : d.time.toNanos ≤ r.time.toNanos := by
              by_contra hlt
              exact h ⟨hcm, by omega⟩
            refine Or.inr ⟨show d.day + (-7) = d.day + d.weekday.duration_from c by omega, ?_⟩
            show d.time.toNanos ≤ (stamp r.time).toNanos
            rw [stamp_toNanos_of_zero r.time hnano]
            exact hle
          · exact Or.inl (show d.day + (-7) < d.day + d.weekday.duration_from c by omega)

/-- C4 witness: {Sun}@14:00 queried on a Sunday at 14:15:16 gives
next = day 13 (strictly later, exactly 7 days ahead) and prev = the same
day at 14:00 (earlier, within 7 days). -/
theorem progress_claim_witness :
    ((DateTime.weekday ⟨6, ⟨14, 15, 16, 0⟩⟩ ∈ ([.Sun] : List OrderedWeekday) ∧
        NaiveTime.toNanos ⟨14, 15, 16, 0⟩ < NaiveTime.toNanos ⟨14, 0, 0, 0⟩ →
        DateTime.le ⟨6, stamp ⟨14, 0, 0, 0⟩⟩ ⟨13, ⟨14, 0, 0, 0⟩⟩)
     ∧ (¬(DateTime.weekday ⟨6, ⟨14, 15, 16, 0⟩⟩ ∈ ([.Sun] : List OrderedWeekday) ∧
        NaiveTime.toNanos ⟨14, 15, 16, 0⟩ < NaiveTime.toNanos ⟨14, 0, 0, 0⟩) →
        DateTime.lt ⟨6, ⟨14, 15, 16, 0⟩⟩ ⟨13, ⟨14, 0, 0, 0⟩⟩)
     ∧ DateTime.le ⟨13, ⟨14, 0, 0, 0⟩⟩ (DateTime.addDays ⟨6, ⟨14, 15, 16, 0⟩⟩ 7))
    ∧ (DateTime.le ⟨6, ⟨14, 0, 0, 0⟩⟩ ⟨6, ⟨14, 15, 16, 0⟩⟩
       ∧ DateTime.le (DateTime.addDays ⟨6, ⟨14, 15, 16, 0⟩⟩ (-7)) ⟨6, ⟨14, 0, 0, 0⟩⟩) :=
  progress_claim ⟨[.Sun], ⟨14, 0, 0, 0⟩⟩ ⟨6, ⟨14, 15, 16, 0⟩⟩
    ⟨13, ⟨14, 0, 0, 0⟩⟩ ⟨6, ⟨14, 0, 0, 0⟩⟩ rfl (by decide) (by decide)

end Recurrent
